import Mathlib

/-!
Verification development for the Clarifai streaming provider
(`src/api/providers/clarifai.ts`).

The embedding models:
* `parseClarifaiOutput` — the regex-driven tokenizer that walks the raw
  response text once, left to right, recognizing `<task>`, `<environment_details>`
  and `<thinking>` tag blocks and `tool_code` / `tool_result` fenced blocks,
  emitting `text` and `reasoning` chunks;
* `streamClarifai` — the `stream` method: configuration validation
  (PAT, model id shape), the transport call outcome classification
  (HTTP 200 success, backend error, cancellation, network error), and the
  extraction of the full output text from the response envelope;
* `flattenMessages` — the request-building loop that serializes the system
  prompt and the conversation history into a single text blob.

Strings are modelled as `List Char`; the JavaScript regex semantics for the
specific pattern in the source are unfolded into explicit deterministic
matchers (leftmost match, alternation order, lazy content capture, greedy
whitespace runs with backtracking resolved by the disjointness of the
character classes involved).
-/

/-- The set of characters matched by the JavaScript regex class s and
removed by trim: ASCII whitespace plus the Unicode space separators,
line separators and the BOM. -/
def isJsWs (c : Char) : Bool :=
  c == ' ' || c == '\t' || c == '\n' || c == '\r' || c == '\x0b' || c == '\x0c' ||
  c == Char.ofNat 0xa0 || c == Char.ofNat 0x1680 ||
  (decide (Char.ofNat 0x2000 ≤ c) && decide (c ≤ Char.ofNat 0x200a)) ||
  c == Char.ofNat 0x2028 || c == Char.ofNat 0x2029 || c == Char.ofNat 0x202f ||
  c == Char.ofNat 0x205f || c == Char.ofNat 0x3000 || c == Char.ofNat 0xfeff

/-- The JavaScript regex class w: ASCII letters, digits and underscore. -/
def isJsWordChar (c : Char) : Bool :=
  c.isAlphanum || c == '_'

/-- JavaScript `String.prototype.trim`: remove leading and trailing
whitespace. -/
def trimChars (s : List Char) : List Char :=
  ((s.dropWhile isJsWs).reverse.dropWhile isJsWs).reverse

/-- The backtick character. -/
def tick : Char := Char.ofNat 96

/-- The code-fence delimiter: three backticks. -/
def fenceStr : List Char := [tick, tick, tick]

/-- Literal marker introducing a tool-code fenced block. -/
def toolCodeMarker : List Char := "tool_code".data

/-- Literal marker introducing a tool-result fenced block. -/
def toolResultMarker : List Char := "tool_result".data

/-- Tag name `task`. -/
def taskTag : List Char := "task".data

/-- Tag name `environment_details`. -/
def envTag : List Char := "environment_details".data

/-- Tag name `thinking`. -/
def thinkingTag : List Char := "thinking".data

/-- The opening delimiter of a tag block. -/
def openTagOf (t : List Char) : List Char := '<' :: (t ++ ['>'])

/-- The closing delimiter of a tag block. -/
def closeTagOf (t : List Char) : List Char := '<' :: '/' :: (t ++ ['>'])

/-- Split a string at the first occurrence of `pat`: returns the part
before the occurrence and the part after it.  This computes the lazy
capture of the regex content group followed by the literal closing
delimiter. -/
def splitOnFirst (pat : List Char) : List Char → Option (List Char × List Char)
  | [] => if pat.isPrefixOf ([] : List Char) then some ([], []) else none
  | c :: rest =>
    if pat.isPrefixOf (c :: rest) then some ([], (c :: rest).drop pat.length)
    else
      match splitOnFirst pat rest with
      | some (b, a) => some (c :: b, a)
      | none => none

/-- Does `pat` occur as a contiguous substring? -/
def occursIn (pat : List Char) : List Char → Bool
  | [] => pat.isPrefixOf ([] : List Char)
  | c :: rest => pat.isPrefixOf (c :: rest) || occursIn pat rest

/-- The chunk vocabulary of clare2's `ApiStreamChunk` as used by the
Clarifai provider: `text` and `reasoning` chunks carrying a string value. -/
inductive ApiStreamChunk where
  | text (value : List Char)
  | reasoning (value : List Char)
deriving DecidableEq

/-- The value field of a chunk. -/
def chunkValue : ApiStreamChunk → List Char
  | .text v => v
  | .reasoning v => v

/-- Concatenation of the value fields of a chunk sequence in emission
order. -/
def concatValues (cs : List ApiStreamChunk) : List Char :=
  (cs.map chunkValue).flatten

/-- Try to match one tag alternative `<t>` lazy-content `</t>` at the head
of `s`.  Returns the tag, the captured inner content and the total length
of the match. -/
def matchTagOne (t : List Char) (s : List Char) : Option (List Char × List Char × Nat) :=
  if (openTagOf t).isPrefixOf s then
    match splitOnFirst (closeTagOf t) (s.drop (openTagOf t).length) with
    | some (content, _) =>
      some (t, content, (openTagOf t).length + content.length + (closeTagOf t).length)
    | none => none
  else none

/-- Try the three tag alternatives in the alternation order of the source
regex: `task`, then `environment_details`, then `thinking`. -/
def matchTag (s : List Char) : Option (List Char × List Char × Nat) :=
  match matchTagOne taskTag s with
  | some r => some r
  | none =>
    match matchTagOne envTag s with
    | some r => some r
    | none => matchTagOne thinkingTag s

/-- Index of the last newline inside a character run, if any.  The greedy
whitespace-star followed by a literal newline in the fence pattern consumes
the run up to and including its last newline. -/
def lastNewlineIdx : List Char → Option Nat
  | [] => none
  | c :: rest =>
    match lastNewlineIdx rest with
    | some i => some (i + 1)
    | none => if c == '\n' then some 0 else none

/-- Locate the closing fence reachable from the lazy content group: the
smallest offset from which a maximal whitespace run is followed by three
backticks.  Returns the offset just past the closing fence. -/
def findClose (s : List Char) : Option Nat :=
  if fenceStr.isPrefixOf (s.drop (s.takeWhile isJsWs).length) then
    some ((s.takeWhile isJsWs).length + 3)
  else
    match s with
    | [] => none
    | _ :: rest => (findClose rest).map (· + 1)

/-- Try to match a fenced block `marker` whitespace-star fence, optional
language word, whitespace run ending in a newline, lazy body, closing
fence, at the head of `s`.  Returns the total length of the match. -/
def matchFence (marker : List Char) (s : List Char) : Option Nat :=
  if marker.isPrefixOf s then
    let s1 := s.drop marker.length
    let ws1 := (s1.takeWhile isJsWs).length
    let s2 := s1.drop ws1
    if fenceStr.isPrefixOf s2 then
      let s3 := s2.drop 3
      let wlen := (s3.takeWhile isJsWordChar).length
      let s4 := s3.drop wlen
      match lastNewlineIdx (s4.takeWhile isJsWs) with
      | none => none
      | some k =>
        match findClose (s4.drop (k + 1)) with
        | none => none
        | some e => some (marker.length + ws1 + 3 + wlen + (k + 1) + e)
    else none
  else none

/-- The switch on the captured tag name in `parseClarifaiOutput`: the three
recognized tags yield a `reasoning` chunk with the trimmed inner content;
any other tag would fall through to a verbatim `text` chunk. -/
def classifyTag (t content fullMatch : List Char) : ApiStreamChunk :=
  if t == taskTag || t == envTag || t == thinkingTag then
    .reasoning (trimChars content)
  else
    .text fullMatch

/-- One step of the regex `exec`: try the alternatives of the block regex
at the head of `s` in order (tag block, `tool_code` fence, `tool_result`
fence).  Returns the chunk the loop body would yield for the match and the
length of the full match. -/
def tryMatchBlock (s : List Char) : Option (ApiStreamChunk × Nat) :=
  match matchTag s with
  | some (t, content, n) => some (classifyTag t content (s.take n), n)
  | none =>
    match matchFence toolCodeMarker s with
    | some n => some (.text (s.take n), n)
    | none =>
      match matchFence toolResultMarker s with
      | some n => some (.text (s.take n), n)
      | none => none

/-- Emit the pending plain-text gap, if non-empty — the
`startIndex > lastIndex` guard of the loop and the final tail emission. -/
def flushText (pending : List Char) : List ApiStreamChunk :=
  if pending.isEmpty then [] else [.text pending]

/-- The scan loop of `parseClarifaiOutput`.  `pending` holds the plain
text accumulated since the end of the previous match; the fuel is an upper
bound on the number of characters still to be examined (every accepted
match is non-empty, so the length of the remaining text is a valid
bound). -/
def scanAux : Nat → List Char → List Char → List ApiStreamChunk
  | 0, s, pending => flushText (pending ++ s)
  | Nat.succ fuel, s, pending =>
    match s with
    | [] => flushText pending
    | c :: rest =>
      match tryMatchBlock (c :: rest) with
      | some (ch, n) => flushText pending ++ ch :: scanAux fuel ((c :: rest).drop n) []
      | none => scanAux fuel rest (pending ++ [c])

/-- The tokenizer `parseClarifaiOutput`: scan the raw response text once,
left to right, yielding interleaved plain-text chunks and classified block
chunks. -/
def parseClarifaiOutput (outputText : List Char) : List ApiStreamChunk :=
  scanAux outputText.length outputText []

/-- Number of recognized block matches accepted by the scan (the number of
successful `exec` iterations). -/
def countBlocksAux : Nat → List Char → Nat
  | 0, _ => 0
  | Nat.succ fuel, s =>
    match s with
    | [] => 0
    | c :: rest =>
      match tryMatchBlock (c :: rest) with
      | some (_, n) => 1 + countBlocksAux fuel ((c :: rest).drop n)
      | none => countBlocksAux fuel rest

/-- Number of recognized blocks in a raw response text. -/
def countRecognizedBlocks (s : List Char) : Nat := countBlocksAux s.length s

/-- No alternative of the block regex matches at any position of `s`. -/
def noBlockAnywhere : List Char → Bool
  | [] => true
  | c :: rest => (tryMatchBlock (c :: rest)).isNone && noBlockAnywhere rest

/-- A decomposition segment of a raw response text: a plain-text stretch,
a recognized tag block (delimiters plus inner content), or a recognized
fenced block kept verbatim. -/
inductive Seg where
  | plain (p : List Char)
  | tagB (t : List Char) (content : List Char)
  | fenceB (b : List Char)
deriving DecidableEq

/-- The text a segment occupies in the raw response. -/
def segRender : Seg → List Char
  | .plain p => p
  | .tagB t c => openTagOf t ++ c ++ closeTagOf t
  | .fenceB b => b

/-- The chunks the tokenizer emits for a segment. -/
def segEmit : Seg → List ApiStreamChunk
  | .plain p => flushText p
  | .tagB _ c => [.reasoning (trimChars c)]
  | .fenceB b => [.text b]

/-- The chunk values a segment contributes to the reconstruction. -/
def segValue : Seg → List Char
  | .plain p => p
  | .tagB _ c => trimChars c
  | .fenceB b => b

/-- The raw response text of a decomposition. -/
def segsRender (segs : List Seg) : List Char := (segs.map segRender).flatten

/-- The chunk sequence of a decomposition. -/
def segsEmit (segs : List Seg) : List ApiStreamChunk := (segs.map segEmit).flatten

/-- The concatenated chunk values of a decomposition. -/
def segsValue (segs : List Seg) : List Char := (segs.map segValue).flatten

/-- The configuration fields of `ApiHandlerOptions` consumed by the
Clarifai provider.  `none` models an absent (undefined) field. -/
structure ApiHandlerOptions where
  clarifaiPat : Option (List Char)
  apiModelId : Option (List Char)
  clarifaiApiBaseUrl : Option (List Char)
deriving DecidableEq

/-- JavaScript truthiness of an optional string: present and non-empty. -/
def truthyStr : Option (List Char) → Bool
  | some s => !s.isEmpty
  | none => false

/-- JavaScript `String.prototype.split` on the slash separator. -/
def splitSlash : List Char → List (List Char)
  | [] => [[]]
  | c :: rest =>
    if c == '/' then [] :: splitSlash rest
    else
      match splitSlash rest with
      | [] => [[c]]
      | p :: ps => (c :: p) :: ps

/-- One entry of the success envelope's `outputs` array, reduced to the
optional `data.text.raw` string reachable by the source's optional
chaining (`none` models any missing link in the path). -/
abbrev OutputEntry := Option (List Char)

/-- The response body fields the source reads: the `outputs` array and the
optional error envelope `status.code` / `status.description`. -/
structure ResponseBody where
  outputs : List OutputEntry
  statusCode : Option Nat
  statusDesc : Option (List Char)
deriving DecidableEq

/-- Outcome of the transport call, as classified by the source's
try/catch: a resolved response, a cancellation, an axios error (with an
optional attached response), or any other thrown error. -/
inductive TransportResult where
  | resolved (httpStatus : Nat) (body : ResponseBody)
  | cancelledT
  | axiosErr (resp : Option (Nat × ResponseBody)) (message : List Char)
  | otherErr (message : List Char)

/-- The observable outcome of a `stream` call: normal completion with the
emitted chunk sequence, or a thrown error with its message. -/
inductive StreamOutcome where
  | success (chunks : List ApiStreamChunk)
  | threw (message : List Char)
deriving DecidableEq

/-- `fullOutputText` accumulation: every output entry with a truthy raw
text contributes that text followed by a newline. -/
def extractFullOutputText (outputs : List OutputEntry) : List Char :=
  outputs.foldl
    (fun acc o =>
      match o with
      | some r => if r.isEmpty then acc else acc ++ r ++ ['\n']
      | none => acc)
    []

/-- Error message for a missing personal access token. -/
def patMissingMsg : List Char :=
  "Clarifai Personal Access Token (PAT) is not configured.".data

/-- Error message for a missing model id. -/
def modelMissingMsg : List Char :=
  "Clarifai Model ID is not configured.".data

/-- Error message for a malformed model id. -/
def invalidModelMsg (modelId : List Char) : List Char :=
  "Invalid Clarifai Model ID format: ".data ++ modelId ++
    ". Expected format: user_id/app_id/models/model_name.".data

/-- The backend error message `Clarifai API error (code): description`. -/
def apiErrorMsg (code desc : List Char) : List Char :=
  "Clarifai API error (".data ++ code ++ "): ".data ++ desc

/-- JavaScript `a || b` over an optional number where `0` is falsy. -/
def natCodeOr (o : Option Nat) (d : Nat) : Nat :=
  match o with
  | some n => if n == 0 then d else n
  | none => d

/-- JavaScript `a || b` over an optional string where the empty string is
falsy. -/
def strOr (o : Option (List Char)) (d : List Char) : List Char :=
  match o with
  | some s => if s.isEmpty then d else s
  | none => d

/-- The resolved-response branch of `stream`: HTTP 200 with a non-empty
`outputs` array is the success condition; a non-empty extracted text is
tokenized, an empty one completes with zero chunks (warning only); any
other resolved response throws the backend error message. -/
def handleResolved (httpStatus : Nat) (body : ResponseBody) : StreamOutcome :=
  if httpStatus == 200 && !body.outputs.isEmpty then
    let full := extractFullOutputText body.outputs
    if !full.isEmpty then .success (parseClarifaiOutput full)
    else .success []
  else
    .threw (apiErrorMsg (Nat.repr (natCodeOr body.statusCode httpStatus)).data
      (strOr body.statusDesc "Unknown error".data))

/-- The axios-error branch of `stream`: description and code are taken
from the attached response envelope when present, falling back to the
error message, the HTTP status, and the literal `Network Error`. -/
def handleAxiosError (resp : Option (Nat × ResponseBody)) (message : List Char) : StreamOutcome :=
  let desc :=
    match resp with
    | some (_, b) => strOr b.statusDesc message
    | none => message
  let code : List Char :=
    match resp with
    | some (st, b) =>
      match b.statusCode with
      | some n =>
        if n == 0 then (if st == 0 then "Network Error".data else (Nat.repr st).data)
        else (Nat.repr n).data
      | none => if st == 0 then "Network Error".data else (Nat.repr st).data
    | none => "Network Error".data
  .threw (apiErrorMsg code desc)

/-- The `stream` method of the Clarifai handler, modelled over an abstract
transport.  The second component of the result counts the network requests
performed: the configuration checks (PAT present, model id present, model
id of the shape `user_id/app_id/models/model_name`) all throw before the
transport is invoked; a cancellation observed by the transport completes
the stream silently with zero chunks. -/
def streamClarifai (options : ApiHandlerOptions) (transport : Unit → TransportResult) :
    StreamOutcome × Nat :=
  if !truthyStr options.clarifaiPat then (.threw patMissingMsg, 0)
  else if !truthyStr options.apiModelId then (.threw modelMissingMsg, 0)
  else
    let modelId := options.apiModelId.getD []
    let modelParts := splitSlash modelId
    if !(modelParts.length == 4 && modelParts[2]? == some "models".data) then
      (.threw (invalidModelMsg modelId), 0)
    else
      match transport () with
      | .resolved st body => (handleResolved st body, 1)
      | .cancelledT => (.success [], 1)
      | .axiosErr resp msg => (handleAxiosError resp msg, 1)
      | .otherErr msg => (.threw ("Clarifai stream error: ".data ++ msg), 1)

/-- Whether the configuration passes all the pre-network checks of
`stream`. -/
def configValid (options : ApiHandlerOptions) : Bool :=
  truthyStr options.clarifaiPat && truthyStr options.apiModelId &&
    (let parts := splitSlash (options.apiModelId.getD [])
     parts.length == 4 && parts[2]? == some "models".data)

/-- Role of a conversation message. -/
inductive Role where
  | user
  | assistant
deriving DecidableEq

/-- A content part of an array-valued message content: a text part or any
non-text part (ignored by the flattening). -/
inductive ContentPart where
  | textPart (text : List Char)
  | otherPart
deriving DecidableEq

/-- Message content: a plain string or an array of content parts. -/
inductive MsgContent where
  | str (s : List Char)
  | parts (ps : List ContentPart)
deriving DecidableEq

/-- A conversation message. -/
structure ConversationMessage where
  role : Role
  content : MsgContent
deriving DecidableEq

/-- The text a content part contributes: text parts verbatim, everything
else the empty string. -/
def partText : ContentPart → List Char
  | .textPart t => t
  | .otherPart => []

/-- The text of a message content: string content verbatim; array content
has its parts mapped to text and joined with newline. -/
def contentText : MsgContent → List Char
  | .str s => s
  | .parts ps => List.intercalate ['\n'] (ps.map partText)

/-- The role label prepended to each message. -/
def roleLabel : Role → List Char
  | .user => "User: ".data
  | .assistant => "Assistant: ".data

/-- The request-building loop of `stream`: the flattened input text,
accumulated by successive appends exactly as the source's `inputText`
mutation does. -/
def flattenMessages (systemPrompt : List Char) (messages : List ConversationMessage) :
    List Char :=
  let base :=
    if systemPrompt.isEmpty then ([] : List Char)
    else "System: ".data ++ systemPrompt ++ "\n\n".data
  messages.foldl
    (fun acc msg => acc ++ roleLabel msg.role ++ contentText msg.content ++ "\n\n".data)
    base

/-- The flattening as the specification words it: the optional system
prefix followed by, for each message in order, its role label, its text
and two newlines. -/
def specFlatten (systemPrompt : List Char) (messages : List ConversationMessage) :
    List Char :=
  (if systemPrompt.isEmpty then ([] : List Char)
   else "System: ".data ++ systemPrompt ++ "\n\n".data) ++
  (messages.map (fun msg => roleLabel msg.role ++ contentText msg.content ++ "\n\n".data)).flatten

/-! ### Structural lemmas about the matchers -/

theorem isPrefixOf_eq_append (p : List Char) :
    ∀ s : List Char, p.isPrefixOf s = true → s = p ++ s.drop p.length := by
  induction p with
  | nil => intro s _; simp
  | cons a as ih =>
    intro s h
    cases s with
    | nil => simp [List.isPrefixOf] at h
    | cons b bs =>
      simp only [List.isPrefixOf, Bool.and_eq_true, beq_iff_eq] at h
      obtain ⟨rfl, h2⟩ := h
      have h3 := ih bs h2
      simp only [List.cons_append, List.length_cons, List.drop_succ_cons]
      rw [← h3]

theorem isPrefixOf_append_self (p t : List Char) : p.isPrefixOf (p ++ t) = true := by
  induction p with
  | nil => simp [List.isPrefixOf]
  | cons a as ih => simp [List.isPrefixOf, ih]

theorem splitOnFirst_some (pat : List Char) :
    ∀ s b a, splitOnFirst pat s = some (b, a) → s = b ++ pat ++ a := by
  intro s
  induction s with
  | nil =>
    intro b a h
    simp only [splitOnFirst] at h
    by_cases hp : pat.isPrefixOf ([] : List Char) = true
    · cases pat with
      | nil => simp_all
      | cons x xs => simp [List.isPrefixOf] at hp
    · simp [hp] at h
  | cons c rest ih =>
    intro b a h
    simp only [splitOnFirst] at h
    by_cases hp : pat.isPrefixOf (c :: rest) = true
    · rw [if_pos hp] at h
      obtain ⟨rfl, rfl⟩ := Prod.mk.injEq .. ▸ (Option.some.injEq .. ▸ h)
      have := isPrefixOf_eq_append pat (c :: rest) hp
      simpa using this
    · rw [if_neg hp] at h
      cases hsp : splitOnFirst pat rest with
      | none => rw [hsp] at h; exact absurd h (by simp)
      | some pr =>
        obtain ⟨b0, a0⟩ := pr
        rw [hsp] at h
        obtain ⟨rfl, rfl⟩ := Prod.mk.injEq .. ▸ (Option.some.injEq .. ▸ h)
        have := ih b0 a0 hsp
        simp [this]

theorem matchTagOne_some {t s t₁ c : List Char} {n : Nat}
    (h : matchTagOne t s = some (t₁, c, n)) :
    t₁ = t ∧ n = (openTagOf t ++ c ++ closeTagOf t).length ∧
      s = (openTagOf t ++ c ++ closeTagOf t) ++ s.drop n := by
  unfold matchTagOne at h
  by_cases hp : (openTagOf t).isPrefixOf s = true
  · rw [if_pos hp] at h
    cases hsp : splitOnFirst (closeTagOf t) (s.drop (openTagOf t).length) with
    | none => rw [hsp] at h; exact absurd h (by simp)
    | some pr =>
      obtain ⟨content, after⟩ := pr
      rw [hsp] at h
      simp only [Option.some.injEq, Prod.mk.injEq] at h
      obtain ⟨rfl, rfl, rfl⟩ := h
      refine ⟨rfl, by simp only [List.length_append], ?_⟩
      have ha := isPrefixOf_eq_append (openTagOf t) s hp
      have hb := splitOnFirst_some (closeTagOf t) _ _ _ hsp
      have hs : s = (openTagOf t ++ content ++ closeTagOf t) ++ after := by
        rw [ha, hb]; simp
      rw [hs]
      have hlen : (openTagOf t).length + content.length + (closeTagOf t).length =
          (openTagOf t ++ content ++ closeTagOf t).length := by
        simp only [List.length_append]
      rw [hlen, List.drop_left]
  · rw [if_neg hp] at h; exact absurd h (by simp)

theorem matchTag_some {s t c : List Char} {n : Nat}
    (h : matchTag s = some (t, c, n)) :
    (t = taskTag ∨ t = envTag ∨ t = thinkingTag) ∧
      n = (openTagOf t ++ c ++ closeTagOf t).length ∧
      s = (openTagOf t ++ c ++ closeTagOf t) ++ s.drop n := by
  unfold matchTag at h
  cases h1 : matchTagOne taskTag s with
  | some r =>
    rw [h1] at h
    obtain ⟨ht, hn, hs⟩ := matchTagOne_some (h1.trans h)
    subst ht
    exact ⟨Or.inl rfl, hn, hs⟩
  | none =>
    rw [h1] at h
    cases h2 : matchTagOne envTag s with
    | some r =>
      rw [h2] at h
      obtain ⟨ht, hn, hs⟩ := matchTagOne_some (h2.trans h)
      subst ht
      exact ⟨Or.inr (Or.inl rfl), hn, hs⟩
    | none =>
      rw [h2] at h
      obtain ⟨ht, hn, hs⟩ := matchTagOne_some h
      subst ht
      exact ⟨Or.inr (Or.inr rfl), hn, hs⟩

theorem matchFence_ge {marker s : List Char} {n : Nat}
    (h : matchFence marker s = some n) : 3 ≤ n := by
  unfold matchFence at h
  split at h
  · simp only at h
    split at h
    · split at h
      · exact absurd h (by simp)
      · split at h
        · exact absurd h (by simp)
        · simp only [Option.some.injEq] at h
          omega
    · exact absurd h (by simp)
  · exact absurd h (by simp)

theorem tryMatchBlock_pos {s : List Char} {ch : ApiStreamChunk} {n : Nat}
    (h : tryMatchBlock s = some (ch, n)) : 1 ≤ n := by
  unfold tryMatchBlock at h
  cases h1 : matchTag s with
  | some r =>
    obtain ⟨t, c, m⟩ := r
    rw [h1] at h
    simp only [Option.some.injEq, Prod.mk.injEq] at h
    obtain ⟨-, rfl⟩ := h
    obtain ⟨-, hn, -⟩ := matchTag_some h1
    have hop : 1 ≤ (openTagOf t).length := by simp [openTagOf]
    rw [hn]
    simp only [List.length_append]
    omega
  | none =>
    rw [h1] at h
    cases h2 : matchFence toolCodeMarker s with
    | some m =>
      rw [h2] at h
      simp only [Option.some.injEq, Prod.mk.injEq] at h
      obtain ⟨-, rfl⟩ := h
      have := matchFence_ge h2
      omega
    | none =>
      rw [h2] at h
      cases h3 : matchFence toolResultMarker s with
      | some m =>
        rw [h3] at h
        simp only [Option.some.injEq, Prod.mk.injEq] at h
        obtain ⟨-, rfl⟩ := h
        have := matchFence_ge h3
        omega
      | none => rw [h3] at h; exact absurd h (by simp)

theorem classifyTag_of_recognized {t content fullMatch : List Char}
    (h : t = taskTag ∨ t = envTag ∨ t = thinkingTag) :
    classifyTag t content fullMatch = .reasoning (trimChars content) := by
  rcases h with h | h | h <;> subst h <;> simp [classifyTag]

theorem tryMatchBlock_seg {s : List Char} {ch : ApiStreamChunk} {n : Nat}
    (h : tryMatchBlock s = some (ch, n)) :
    ∃ seg : Seg, segRender seg = s.take n ∧ segEmit seg = [ch] ∧
      (∀ t c, seg = Seg.tagB t c → t = taskTag ∨ t = envTag ∨ t = thinkingTag) := by
  unfold tryMatchBlock at h
  cases h1 : matchTag s with
  | some r =>
    obtain ⟨t, c, m⟩ := r
    rw [h1] at h
    simp only [Option.some.injEq, Prod.mk.injEq] at h
    obtain ⟨hch, rfl⟩ := h
    obtain ⟨hmem, hn, hs⟩ := matchTag_some h1
    refine ⟨Seg.tagB t c, ?_, ?_, ?_⟩
    · have htake : s.take m = openTagOf t ++ c ++ closeTagOf t := by
        conv_lhs => rw [hs]
        rw [hn, List.take_left]
      rw [htake]
      rfl
    · simp only [segEmit]
      rw [← hch, classifyTag_of_recognized hmem]
    · intro t' c' heq
      cases heq
      exact hmem
  | none =>
    rw [h1] at h
    cases h2 : matchFence toolCodeMarker s with
    | some m =>
      rw [h2] at h
      simp only [Option.some.injEq, Prod.mk.injEq] at h
      obtain ⟨hch, rfl⟩ := h
      exact ⟨Seg.fenceB (s.take m), rfl, by simp only [segEmit]; rw [← hch],
        by intro t' c' heq; cases heq⟩
    | none =>
      rw [h2] at h
      cases h3 : matchFence toolResultMarker s with
      | some m =>
        rw [h3] at h
        simp only [Option.some.injEq, Prod.mk.injEq] at h
        obtain ⟨hch, rfl⟩ := h
        exact ⟨Seg.fenceB (s.take m), rfl, by simp only [segEmit]; rw [← hch],
          by intro t' c' heq; cases heq⟩
      | none => rw [h3] at h; exact absurd h (by simp)

theorem segsRender_cons (a : Seg) (l : List Seg) :
    segsRender (a :: l) = segRender a ++ segsRender l := by
  simp [segsRender]

theorem segsEmit_cons (a : Seg) (l : List Seg) :
    segsEmit (a :: l) = segEmit a ++ segsEmit l := by
  simp [segsEmit]

theorem segsValue_cons (a : Seg) (l : List Seg) :
    segsValue (a :: l) = segValue a ++ segsValue l := by
  simp [segsValue]

theorem scanAux_decomp :
    ∀ fuel s pending, s.length ≤ fuel →
      ∃ segs : List Seg, segsRender segs = pending ++ s ∧
        segsEmit segs = scanAux fuel s pending ∧
        (∀ t c, Seg.tagB t c ∈ segs → t = taskTag ∨ t = envTag ∨ t = thinkingTag) := by
  intro fuel
  induction fuel with
  | zero =>
    intro s pending hle
    have hs : s = [] := List.eq_nil_of_length_eq_zero (Nat.le_zero.mp hle)
    subst hs
    refine ⟨[Seg.plain (pending ++ [])], ?_, ?_, ?_⟩
    · simp [segsRender, segRender]
    · simp [segsEmit, segEmit, scanAux]
    · intro t c hmem
      simp only [List.mem_singleton] at hmem
      cases hmem
  | succ fuel ih =>
    intro s pending hle
    cases s with
    | nil =>
      refine ⟨[Seg.plain pending], ?_, ?_, ?_⟩
      · simp [segsRender, segRender]
      · simp [segsEmit, segEmit, scanAux]
      · intro t c hmem
        simp only [List.mem_singleton] at hmem
        cases hmem
    | cons c rest =>
      cases hm : tryMatchBlock (c :: rest) with
      | none =>
        obtain ⟨segs, h1, h2, h3⟩ := ih rest (pending ++ [c])
          (by simp only [List.length_cons] at hle; omega)
        refine ⟨segs, ?_, ?_, h3⟩
        · rw [h1]; simp
        · rw [h2]; simp only [scanAux, hm]
      | some pr =>
        obtain ⟨ch, n⟩ := pr
        have hpos := tryMatchBlock_pos hm
        obtain ⟨seg, hr, he, htag⟩ := tryMatchBlock_seg hm
        have hlen : ((c :: rest).drop n).length ≤ fuel := by
          simp only [List.length_drop, List.length_cons]
          simp only [List.length_cons] at hle
          omega
        obtain ⟨segs, h1, h2, h3⟩ := ih ((c :: rest).drop n) [] hlen
        refine ⟨Seg.plain pending :: seg :: segs, ?_, ?_, ?_⟩
        · rw [segsRender_cons, segsRender_cons, h1, hr]
          simp only [segRender, List.nil_append]
          rw [List.take_append_drop]
        · rw [segsEmit_cons, segsEmit_cons, h2, he]
          simp only [segEmit, scanAux, hm, List.singleton_append]
        · intro t c' hmem
          simp only [List.mem_cons] at hmem
          rcases hmem with hmem | hmem | hmem
          · cases hmem
          · exact htag t c' hmem.symm
          · exact h3 t c' hmem

theorem concatValues_segsEmit (segs : List Seg) :
    concatValues (segsEmit segs) = segsValue segs := by
  induction segs with
  | nil => rfl
  | cons a l ih =>
    rw [segsEmit_cons, segsValue_cons]
    have hconcat : ∀ x y, concatValues (x ++ y) = concatValues x ++ concatValues y := by
      intro x y; simp [concatValues]
    rw [hconcat, ih]
    congr 1
    cases a with
    | plain p =>
      simp only [segEmit, segValue, flushText]
      by_cases hp : p.isEmpty = true
      · rw [if_pos hp]
        simp only [List.isEmpty_iff] at hp
        simp [concatValues, hp]
      · rw [if_neg hp]
        simp [concatValues, chunkValue]
    | tagB t c => simp [segEmit, segValue, concatValues, chunkValue]
    | fenceB b => simp [segEmit, segValue, concatValues, chunkValue]

theorem concatValues_append (a b : List ApiStreamChunk) :
    concatValues (a ++ b) = concatValues a ++ concatValues b := by
  simp [concatValues]

theorem concatValues_flushText (p : List Char) :
    concatValues (flushText p) = p := by
  unfold flushText
  by_cases hp : p.isEmpty = true
  · rw [if_pos hp]
    simp only [List.isEmpty_iff] at hp
    simp [concatValues, hp]
  · rw [if_neg hp]
    simp [concatValues, chunkValue]

theorem flushText_length (p : List Char) : (flushText p).length ≤ 1 := by
  unfold flushText
  split <;> simp

/-- Claim C1, as stated, fails on the code: for the raw response text
made of a single thinking block with padded content, the tokenizer trims
the inner content, so the concatenation of the chunk values is not the
input with only the delimiter substrings removed (which would keep the
padding whitespace). -/
theorem C1_cex :
    concatValues (parseClarifaiOutput "<thinking> x </thinking>".data) ≠ " x ".data := by
  decide

/-- Claim C1 (amended): every raw response text decomposes into plain
stretches, recognized tag blocks and recognized fenced blocks such that
the decomposition renders back to the input exactly, the emitted chunks
are exactly the per-segment emissions (plain stretches and fenced blocks
verbatim as text chunks, tag blocks as reasoning chunks with trimmed inner
content), and hence the concatenated chunk values are the input with the
tag delimiters removed and each tag block's inner content trimmed, while
fenced blocks are reproduced verbatim with their delimiters. -/
theorem C1_amended (s : List Char) :
    ∃ segs : List Seg, segsRender segs = s ∧
      parseClarifaiOutput s = segsEmit segs ∧
      concatValues (parseClarifaiOutput s) = segsValue segs ∧
      (∀ t c, Seg.tagB t c ∈ segs → t = taskTag ∨ t = envTag ∨ t = thinkingTag) := by
  obtain ⟨segs, h1, h2, h3⟩ := scanAux_decomp s.length s [] (Nat.le_refl _)
  have hp : parseClarifaiOutput s = segsEmit segs := by
    unfold parseClarifaiOutput
    exact h2.symm
  refine ⟨segs, by simpa using h1, hp, ?_, h3⟩
  rw [hp, concatValues_segsEmit]

theorem noBlockAnywhere_scan :
    ∀ fuel s pending, s.length ≤ fuel → noBlockAnywhere s = true →
      scanAux fuel s pending = flushText (pending ++ s) := by
  intro fuel
  induction fuel with
  | zero => intro s pending _ _; rfl
  | succ fuel ih =>
    intro s pending hle hnb
    cases s with
    | nil => simp [scanAux]
    | cons c rest =>
      simp only [noBlockAnywhere, Bool.and_eq_true] at hnb
      obtain ⟨hm, hrest⟩ := hnb
      have hm' : tryMatchBlock (c :: rest) = none := by
        cases h : tryMatchBlock (c :: rest) with
        | none => rfl
        | some pr => rw [h] at hm; simp at hm
      simp only [scanAux, hm']
      rw [ih rest (pending ++ [c]) (by simp only [List.length_cons] at hle; omega) hrest]
      simp

/-- Claim C9: a raw response text in which no alternative of the block
regex matches at any position is emitted as a single text chunk equal to
the whole input, and the empty input yields no chunks. -/
theorem C9_no_blocks (s : List Char) (h : noBlockAnywhere s = true) :
    parseClarifaiOutput s = if s = [] then [] else [ApiStreamChunk.text s] := by
  unfold parseClarifaiOutput
  rw [noBlockAnywhere_scan s.length s [] (Nat.le_refl _) h]
  simp only [List.nil_append]
  unfold flushText
  by_cases hs : s = []
  · subst hs; simp
  · rw [if_neg hs, if_neg (by simpa [List.isEmpty_iff] using hs)]

/-- Witness for claim C9: the block-free input `hello world` is one text
chunk, and the empty input is zero chunks. -/
theorem C9_no_blocks_witness :
    parseClarifaiOutput "hello world".data = [ApiStreamChunk.text "hello world".data] ∧
      parseClarifaiOutput "".data = [] := by
  constructor
  · have h := C9_no_blocks "hello world".data (by decide)
    rw [if_neg (by decide)] at h
    exact h
  · have h := C9_no_blocks "".data (by decide)
    rw [if_pos (by decide)] at h
    exact h

theorem scanAux_length_le :
    ∀ fuel s pending,
      (scanAux fuel s pending).length ≤ 2 * countBlocksAux fuel s + 1 := by
  intro fuel
  induction fuel with
  | zero =>
    intro s pending
    simp only [scanAux, countBlocksAux]
    have := flushText_length (pending ++ s)
    omega
  | succ fuel ih =>
    intro s pending
    cases s with
    | nil =>
      simp only [scanAux, countBlocksAux]
      have := flushText_length pending
      omega
    | cons c rest =>
      cases hm : tryMatchBlock (c :: rest) with
      | some pr =>
        obtain ⟨ch, n⟩ := pr
        simp only [scanAux, countBlocksAux, hm]
        have h1 := flushText_length pending
        have h2 := ih ((c :: rest).drop n) []
        simp only [List.length_append, List.length_cons]
        omega
      | none =>
        simp only [scanAux, countBlocksAux, hm]
        exact ih rest (pending ++ [c])

/-- Claim C10: every accepted match of the block regex consumes at least
one character (so the scan cursor strictly increases and the scan
terminates), and the number of emitted chunks is at most twice the number
of recognized blocks plus one. -/
theorem C10_termination (s : List Char) :
    (∀ u : List Char, ∀ ch n, tryMatchBlock u = some (ch, n) → 1 ≤ n) ∧
      (parseClarifaiOutput s).length ≤ 2 * countRecognizedBlocks s + 1 :=
  ⟨fun _ _ _ h => tryMatchBlock_pos h, scanAux_length_le s.length s []⟩

/-- Witness for claim C10 at a concrete input: the thinking-block match
consumes 24 characters, and the chunk-count bound holds. -/
theorem C10_termination_witness :
    1 ≤ 24 ∧
      (parseClarifaiOutput "a<thinking>b</thinking>c".data).length ≤
        2 * countRecognizedBlocks "a<thinking>b</thinking>c".data + 1 :=
  ⟨(C10_termination "a<thinking>b</thinking>c".data).1 "<thinking> x </thinking>".data
      (ApiStreamChunk.reasoning "x".data) 24 (by decide),
    (C10_termination "a<thinking>b</thinking>c".data).2⟩

theorem flatten_loop (msgs : List ConversationMessage) :
    ∀ base : List Char,
      msgs.foldl
          (fun acc msg => acc ++ roleLabel msg.role ++ contentText msg.content ++ "\n\n".data)
          base =
        base ++
          (msgs.map
            (fun msg => roleLabel msg.role ++ contentText msg.content ++ "\n\n".data)).flatten := by
  induction msgs with
  | nil => intro base; simp
  | cons m rest ih =>
    intro base
    simp only [List.foldl_cons, List.map_cons, List.flatten_cons]
    rw [ih]
    simp [List.append_assoc]

/-- Claim C8: the request flattening built by the source's accumulation
loop equals the specification's form — the optional `System:` prefix
followed by, for each message in order, its role label, its text content
and two newlines — and the concrete example flattens to exactly
`System: hi` two newlines `User: hello` two newlines. -/
theorem C8_flattening :
    (∀ systemPrompt messages,
        flattenMessages systemPrompt messages = specFlatten systemPrompt messages) ∧
      flattenMessages "hi".data [⟨Role.user, MsgContent.str "hello".data⟩] =
        "System: hi\n\nUser: hello\n\n".data := by
  constructor
  · intro sp msgs
    unfold flattenMessages specFlatten
    exact flatten_loop msgs _
  · decide

theorem streamClarifai_valid (options : ApiHandlerOptions) (transport : Unit → TransportResult)
    (h : configValid options = true) :
    streamClarifai options transport =
      (match transport () with
       | .resolved st body => (handleResolved st body, 1)
       | .cancelledT => (.success [], 1)
       | .axiosErr resp msg => (handleAxiosError resp msg, 1)
       | .otherErr msg => (.threw ("Clarifai stream error: ".data ++ msg), 1)) := by
  unfold configValid at h
  simp only [Bool.and_eq_true] at h
  obtain ⟨⟨h1, h2⟩, h31, h32⟩ := h
  unfold streamClarifai
  simp [h1, h2, h31, h32]

/-- Claim C2, as stated, fails on the code: for the success envelope with
one output carrying `Hello <thinking>ponder</thinking> world`, the stream
appends a newline to each output's text when building the full output
text, so the third chunk is the text ` world` followed by a newline, not
` world`. -/
theorem C2_cex :
    (streamClarifai ⟨some "pat".data, some "u/a/models/m".data, none⟩
        (fun _ => TransportResult.resolved 200
          ⟨[some "Hello <thinking>ponder</thinking> world".data], none, none⟩)).1 ≠
      StreamOutcome.success
        [ApiStreamChunk.text "Hello ".data, ApiStreamChunk.reasoning "ponder".data,
          ApiStreamChunk.text " world".data] := by
  decide

/-- Claim C2 (amended): for every valid configuration, the backend success
envelope with the single output `Hello <thinking>ponder</thinking> world`
and HTTP status 200 yields exactly the three chunks text `Hello `,
reasoning `ponder`, and text ` world` followed by the newline appended by
the output-concatenation step, in that order. -/
theorem C2_amended (options : ApiHandlerOptions) (h : configValid options = true) :
    streamClarifai options
        (fun _ => TransportResult.resolved 200
          ⟨[some "Hello <thinking>ponder</thinking> world".data], none, none⟩) =
      (StreamOutcome.success
        [ApiStreamChunk.text "Hello ".data, ApiStreamChunk.reasoning "ponder".data,
          ApiStreamChunk.text " world\n".data], 1) := by
  rw [streamClarifai_valid _ _ h]
  decide

/-- Witness for claim C2 (amended) at a concrete valid configuration. -/
theorem C2_amended_witness :
    streamClarifai ⟨some "pat".data, some "u/a/models/m".data, none⟩
        (fun _ => TransportResult.resolved 200
          ⟨[some "Hello <thinking>ponder</thinking> world".data], none, none⟩) =
      (StreamOutcome.success
        [ApiStreamChunk.text "Hello ".data, ApiStreamChunk.reasoning "ponder".data,
          ApiStreamChunk.text " world\n".data], 1) :=
  C2_amended _ (by decide)

/-- Claim C3, as stated, fails on the code: an HTTP 200 response whose
envelope has an empty outputs array does not satisfy the success
condition (which requires a non-empty outputs array), so the stream
throws the backend error instead of completing with zero chunks. -/
theorem C3_cex :
    streamClarifai ⟨some "pat".data, some "u/a/models/m".data, none⟩
        (fun _ => TransportResult.resolved 200 ⟨[], none, none⟩) =
      (StreamOutcome.threw (apiErrorMsg "200".data "Unknown error".data), 1) ∧
      (streamClarifai ⟨some "pat".data, some "u/a/models/m".data, none⟩
        (fun _ => TransportResult.resolved 200 ⟨[], none, none⟩)).1 ≠
        StreamOutcome.success [] := by
  constructor <;> decide

/-- Claim C3 (amended): for every valid configuration and every HTTP 200
response whose outputs array is non-empty but contributes no usable text
(entries missing the text field or carrying an empty one), the stream
completes successfully with zero emitted chunks and raises no error. -/
theorem C3_amended (options : ApiHandlerOptions) (body : ResponseBody)
    (hvalid : configValid options = true)
    (hne : body.outputs ≠ [])
    (hempty : extractFullOutputText body.outputs = []) :
    streamClarifai options (fun _ => TransportResult.resolved 200 body) =
      (StreamOutcome.success [], 1) := by
  rw [streamClarifai_valid _ _ hvalid]
  show (handleResolved 200 body, 1) = (StreamOutcome.success [], 1)
  unfold handleResolved
  have h1 : body.outputs.isEmpty = false := by
    simp [List.isEmpty_iff, hne]
  simp [h1, hempty]

/-- Witness for claim C3 (amended): a 200 response with one entry missing
the text field and one entry with an empty text yields zero chunks. -/
theorem C3_amended_witness :
    streamClarifai ⟨some "pat".data, some "u/a/models/m".data, none⟩
        (fun _ => TransportResult.resolved 200 ⟨[none, some []], none, none⟩) =
      (StreamOutcome.success [], 1) :=
  C3_amended _ _ (by decide) (by decide) (by decide)

/-- Claim C6: whenever the access token is missing, the model id is
missing, or the model id does not split into four slash-separated
segments with the third equal to `models`, the stream throws the
corresponding configuration error message and performs zero network
requests. -/
theorem C6_config_errors (options : ApiHandlerOptions) (transport : Unit → TransportResult)
    (h : configValid options = false) :
    streamClarifai options transport = (.threw patMissingMsg, 0) ∨
      streamClarifai options transport = (.threw modelMissingMsg, 0) ∨
      streamClarifai options transport =
        (.threw (invalidModelMsg (options.apiModelId.getD [])), 0) := by
  unfold streamClarifai
  cases h1 : truthyStr options.clarifaiPat with
  | false => left; simp [h1]
  | true =>
    cases h2 : truthyStr options.apiModelId with
    | false => right; left; simp [h1, h2]
    | true =>
      right; right
      unfold configValid at h
      rw [h1, h2] at h
      simp only [Bool.true_and] at h
      simp [h1, h2, h]

/-- Witness for claim C6 at the malformed model id `abc/def`. -/
theorem C6_config_errors_witness :
    streamClarifai ⟨some "p".data, some "abc/def".data, none⟩
        (fun _ => TransportResult.cancelledT) = (.threw patMissingMsg, 0) ∨
      streamClarifai ⟨some "p".data, some "abc/def".data, none⟩
        (fun _ => TransportResult.cancelledT) = (.threw modelMissingMsg, 0) ∨
      streamClarifai ⟨some "p".data, some "abc/def".data, none⟩
        (fun _ => TransportResult.cancelledT) =
        (.threw (invalidModelMsg ((some "abc/def".data).getD [])), 0) :=
  C6_config_errors _ _ (by decide)

/-- Claim C7: for every valid configuration, when the transport observes
the caller's cancellation, the stream completes silently with zero
emitted chunks and raises no error. -/
theorem C7_cancellation (options : ApiHandlerOptions) (transport : Unit → TransportResult)
    (hvalid : configValid options = true)
    (hc : transport () = TransportResult.cancelledT) :
    streamClarifai options transport = (StreamOutcome.success [], 1) := by
  rw [streamClarifai_valid _ _ hvalid, hc]

/-- Witness for claim C7 at a concrete valid configuration and a
transport that reports cancellation. -/
theorem C7_cancellation_witness :
    streamClarifai ⟨some "pat".data, some "u/a/models/m".data, none⟩
        (fun _ => TransportResult.cancelledT) = (StreamOutcome.success [], 1) :=
  C7_cancellation _ _ (by decide) rfl

theorem occursIn_head_false {pat s : List Char}
    (h : occursIn pat s = false) : pat.isPrefixOf s = false := by
  cases s with
  | nil => simp only [occursIn] at h; exact h
  | cons c rest =>
    simp only [occursIn, Bool.or_eq_false_iff] at h
    exact h.1

theorem occursIn_tail_false {pat : List Char} {c : Char} {rest : List Char}
    (h : occursIn pat (c :: rest) = false) : occursIn pat rest = false := by
  simp only [occursIn, Bool.or_eq_false_iff] at h
  exact h.2

theorem splitOnFirst_append_of_not_occurs {pat : List Char} (hne : pat ≠ [])
    (hnb : ∀ j, j < pat.length → 0 < j →
      pat.drop j ≠ pat.take (pat.length - j)) :
    ∀ X, occursIn pat X = false → splitOnFirst pat (X ++ pat) = some (X, []) := by
  intro X
  induction X with
  | nil =>
    intro _
    rw [List.nil_append]
    cases hp : pat with
    | nil => exact absurd hp hne
    | cons c rest =>
      rw [← hp]
      cases hq : pat with
      | nil => exact absurd hq hne
      | cons d ds =>
        simp only [hq, splitOnFirst]
        have hself : (d :: ds).isPrefixOf (d :: ds) = true := by
          have h := isPrefixOf_append_self (d :: ds) []
          rwa [List.append_nil] at h
        rw [if_pos hself, List.drop_length]
  | cons x xs ih =>
    intro hocc
    have hpre := occursIn_head_false hocc
    have hocc2 := occursIn_tail_false hocc
    rw [List.cons_append]
    have hnp : pat.isPrefixOf (x :: (xs ++ pat)) = false := by
      cases hb : pat.isPrefixOf (x :: (xs ++ pat)) with
      | false => rfl
      | true =>
        exfalso
        have heq : x :: (xs ++ pat) = pat ++ (x :: (xs ++ pat)).drop pat.length :=
          isPrefixOf_eq_append pat _ hb
        have heq2 : (x :: xs) ++ pat = pat ++ (x :: (xs ++ pat)).drop pat.length := by
          rw [← heq]; rfl
        by_cases hlen : pat.length ≤ (x :: xs).length
        · have h1 : ((x :: xs) ++ pat).take pat.length = (x :: xs).take pat.length := by
            rw [List.take_append_eq_append_take, Nat.sub_eq_zero_of_le hlen]
            simp
          have h2 : ((x :: xs) ++ pat).take pat.length = pat := by
            rw [heq2, List.take_left]
          have h3 : (x :: xs).take pat.length = pat := by rw [← h1, h2]
          have h4 : pat.isPrefixOf (x :: xs) = true := by
            have h5 : (x :: xs) = pat ++ (x :: xs).drop pat.length := by
              conv_lhs => rw [← List.take_append_drop pat.length (x :: xs), h3]
            rw [h5]
            exact isPrefixOf_append_self pat _
          rw [h4] at hpre
          cases hpre
        · push_neg at hlen
          have hjpos : 0 < (x :: xs).length := by simp
          have hjlt : (x :: xs).length < pat.length := hlen
          have hdrop1 : ((x :: xs) ++ pat).drop (x :: xs).length = pat :=
            List.drop_left _ _
          have h0 := congrArg (List.drop (x :: xs).length) heq2
          rw [hdrop1, List.drop_append_eq_append_drop,
            Nat.sub_eq_zero_of_le (Nat.le_of_lt hjlt), List.drop_zero] at h0
          set j := (x :: xs).length with hj
          set D := pat.drop j with hD
          set R := (x :: (xs ++ pat)).drop pat.length with hR
          have hlen2 : D.length = pat.length - j := by rw [hD]; simp
          have htake : pat.take (pat.length - j) = D := by
            rw [← hlen2]
            conv_lhs => rw [h0]
            exact List.take_left D R
          have hcontra : pat.drop j = pat.take (pat.length - j) := by
            rw [← hD]
            exact htake.symm
          exact hnb j hjlt hjpos hcontra
    simp only [splitOnFirst]
    rw [if_neg (by simp [hnp]), ih hocc2]

theorem matchTagOne_render {t X r : List Char}
    (hsplit : splitOnFirst (closeTagOf t) (X ++ (closeTagOf t ++ r)) = some (X, r)) :
    matchTagOne t (openTagOf t ++ (X ++ (closeTagOf t ++ r))) =
      some (t, X, (openTagOf t).length + X.length + (closeTagOf t).length) := by
  unfold matchTagOne
  rw [if_pos (isPrefixOf_append_self (openTagOf t) _), List.drop_left, hsplit]

theorem tryMatchBlock_tag_render {t X r : List Char}
    (hthree : t = taskTag ∨ t = envTag ∨ t = thinkingTag)
    (hsplit : splitOnFirst (closeTagOf t) (X ++ (closeTagOf t ++ r)) = some (X, r)) :
    tryMatchBlock (openTagOf t ++ (X ++ (closeTagOf t ++ r))) =
      some (ApiStreamChunk.reasoning (trimChars X),
        (openTagOf t).length + X.length + (closeTagOf t).length) := by
  have hm := matchTagOne_render hsplit
  unfold tryMatchBlock matchTag
  rcases hthree with rfl | rfl | rfl
  · rw [hm]
    simp only [classifyTag_of_recognized (Or.inl rfl)]
  · have hfail : matchTagOne taskTag
        (openTagOf envTag ++ (X ++ (closeTagOf envTag ++ r))) = none := rfl
    rw [hfail, hm]
    simp only [classifyTag_of_recognized (Or.inr (Or.inl rfl))]
  · have hfail1 : matchTagOne taskTag
        (openTagOf thinkingTag ++ (X ++ (closeTagOf thinkingTag ++ r))) = none := rfl
    have hfail2 : matchTagOne envTag
        (openTagOf thinkingTag ++ (X ++ (closeTagOf thinkingTag ++ r))) = none := rfl
    rw [hfail1, hfail2, hm]
    simp only [classifyTag_of_recognized (Or.inr (Or.inr rfl))]

theorem scanAux_single {s : List Char} {ch : ApiStreamChunk} {n : Nat}
    (hm : tryMatchBlock s = some (ch, n)) (hd : s.drop n = []) :
    ∀ fuel, 1 ≤ fuel → scanAux fuel s [] = [ch] := by
  intro fuel hf
  cases fuel with
  | zero => omega
  | succ f =>
    cases s with
    | nil =>
      rw [show tryMatchBlock ([] : List Char) = none from rfl] at hm
      cases hm
    | cons c rest =>
      simp only [scanAux, hm, hd]
      cases f with
      | zero => rfl
      | succ f2 => rfl

theorem parseClarifaiOutput_single {s : List Char} {ch : ApiStreamChunk} {n : Nat}
    (hm : tryMatchBlock s = some (ch, n)) (hd : s.drop n = []) :
    parseClarifaiOutput s = [ch] := by
  have hne : s ≠ [] := by
    intro h
    subst h
    rw [show tryMatchBlock ([] : List Char) = none from rfl] at hm
    cases hm
  exact scanAux_single hm hd s.length (List.length_pos.mpr hne)

theorem tryMatchBlock_cases {u : List Char} {ch : ApiStreamChunk} {n : Nat}
    (h : tryMatchBlock u = some (ch, n)) :
    (∃ t c, (t = taskTag ∨ t = envTag ∨ t = thinkingTag) ∧
        u.take n = openTagOf t ++ c ++ closeTagOf t ∧
        ch = ApiStreamChunk.reasoning (trimChars c)) ∨
      ((matchFence toolCodeMarker u = some n ∨ matchFence toolResultMarker u = some n) ∧
        ch = ApiStreamChunk.text (u.take n)) := by
  unfold tryMatchBlock at h
  cases h1 : matchTag u with
  | some r =>
    obtain ⟨t, c, m⟩ := r
    rw [h1] at h
    simp only [Option.some.injEq, Prod.mk.injEq] at h
    obtain ⟨hch, rfl⟩ := h
    obtain ⟨hmem, hn, hs⟩ := matchTag_some h1
    left
    refine ⟨t, c, hmem, ?_, ?_⟩
    · conv_lhs => rw [hs]
      rw [hn, List.take_left]
    · rw [← hch, classifyTag_of_recognized hmem]
  | none =>
    rw [h1] at h
    cases h2 : matchFence toolCodeMarker u with
    | some m =>
      rw [h2] at h
      simp only [Option.some.injEq, Prod.mk.injEq] at h
      obtain ⟨hch, rfl⟩ := h
      exact Or.inr ⟨Or.inl rfl, hch.symm⟩
    | none =>
      rw [h2] at h
      cases h3 : matchFence toolResultMarker u with
      | some m =>
        rw [h3] at h
        simp only [Option.some.injEq, Prod.mk.injEq] at h
        obtain ⟨hch, rfl⟩ := h
        exact Or.inr ⟨Or.inr rfl, hch.symm⟩
      | none => rw [h3] at h; exact absurd h (by simp)

/-- Claim C4: for every raw response string, every recognized block in it
is classified as the claim states.  Part one: every match the block regex
can accept, at any position of any text, is either a tag block whose tag
is `task`, `environment_details` or `thinking` — the matched text is
exactly the delimited block and the emitted chunk is one reasoning chunk
carrying the trimmed inner content — or a `tool_code` / `tool_result`
fenced match whose emitted chunk is one text chunk carrying the entire
matched block verbatim.  Part two: every raw response decomposes into
segments rendering back to it whose per-segment emissions are exactly
the tokenizer's output, tag segments emitting one trimmed reasoning
chunk and fenced segments one verbatim text chunk.  Part three: in
particular, a single well-formed tag block with no surrounding text
yields exactly one reasoning chunk with the trimmed inner content.  Part
four: concrete fenced blocks (standalone and embedded in prose) are
re-emitted verbatim. -/
theorem C4_classification :
    (∀ u ch n, tryMatchBlock u = some (ch, n) →
      (∃ t c, (t = taskTag ∨ t = envTag ∨ t = thinkingTag) ∧
          u.take n = openTagOf t ++ c ++ closeTagOf t ∧
          ch = ApiStreamChunk.reasoning (trimChars c)) ∨
        ((matchFence toolCodeMarker u = some n ∨ matchFence toolResultMarker u = some n) ∧
          ch = ApiStreamChunk.text (u.take n))) ∧
    (∀ s : List Char, ∃ segs : List Seg,
      segsRender segs = s ∧ parseClarifaiOutput s = segsEmit segs ∧
        ∀ seg ∈ segs,
          (∃ p, seg = Seg.plain p ∧ segEmit seg = flushText p) ∨
          (∃ t c, seg = Seg.tagB t c ∧ (t = taskTag ∨ t = envTag ∨ t = thinkingTag) ∧
            segEmit seg = [ApiStreamChunk.reasoning (trimChars c)]) ∨
          (∃ b, seg = Seg.fenceB b ∧ segEmit seg = [ApiStreamChunk.text b])) ∧
    (∀ t X, (t = taskTag ∨ t = envTag ∨ t = thinkingTag) →
        occursIn (closeTagOf t) X = false →
        parseClarifaiOutput (openTagOf t ++ X ++ closeTagOf t) =
          [ApiStreamChunk.reasoning (trimChars X)]) ∧
    parseClarifaiOutput "tool_code\x60\x60\x60py\nbody\n\x60\x60\x60".data =
      [ApiStreamChunk.text "tool_code\x60\x60\x60py\nbody\n\x60\x60\x60".data] ∧
    parseClarifaiOutput "x tool_result\x60\x60\x60\nout\n\x60\x60\x60 y".data =
      [ApiStreamChunk.text "x ".data,
        ApiStreamChunk.text "tool_result\x60\x60\x60\nout\n\x60\x60\x60".data,
        ApiStreamChunk.text " y".data] := by
  refine ⟨fun u ch n h => tryMatchBlock_cases h, ?_, ?_, by decide, by decide⟩
  · intro s
    obtain ⟨segs, h1, h2, h3⟩ := scanAux_decomp s.length s [] (Nat.le_refl _)
    refine ⟨segs, by simpa using h1, by unfold parseClarifaiOutput; exact h2.symm, ?_⟩
    intro seg hmem
    cases seg with
    | plain p => exact Or.inl ⟨p, rfl, rfl⟩
    | tagB t c => exact Or.inr (Or.inl ⟨t, c, rfl, h3 t c hmem, rfl⟩)
    | fenceB b => exact Or.inr (Or.inr ⟨b, rfl, rfl⟩)
  · intro t X hthree hocc
    have hne : closeTagOf t ≠ [] := by simp [closeTagOf]
    have hnb : ∀ j, j < (closeTagOf t).length → 0 < j →
        (closeTagOf t).drop j ≠ (closeTagOf t).take ((closeTagOf t).length - j) := by
      rcases hthree with rfl | rfl | rfl <;> decide
    have hsplit : splitOnFirst (closeTagOf t) (X ++ (closeTagOf t ++ [])) = some (X, []) := by
      simpa using splitOnFirst_append_of_not_occurs hne hnb X hocc
    have hm := tryMatchBlock_tag_render hthree hsplit
    have hshape : openTagOf t ++ (X ++ (closeTagOf t ++ [])) =
        openTagOf t ++ X ++ closeTagOf t := by simp
    rw [← hshape]
    apply parseClarifaiOutput_single hm
    apply List.drop_eq_nil_of_le
    simp only [List.length_append, List.length_nil]
    omega

/-- Witness for claim C4: the per-block classification applied to the
match accepted at the head of `<thinking> x </thinking>rest`, and the
standalone thinking block with padded body yielding one reasoning chunk
with the trimmed body. -/
theorem C4_classification_witness :
    ((∃ t c, (t = taskTag ∨ t = envTag ∨ t = thinkingTag) ∧
        ("<thinking> x </thinking>rest".data).take 24 =
          openTagOf t ++ c ++ closeTagOf t ∧
        ApiStreamChunk.reasoning "x".data = ApiStreamChunk.reasoning (trimChars c)) ∨
      ((matchFence toolCodeMarker "<thinking> x </thinking>rest".data = some 24 ∨
          matchFence toolResultMarker "<thinking> x </thinking>rest".data = some 24) ∧
        ApiStreamChunk.reasoning "x".data =
          ApiStreamChunk.text (("<thinking> x </thinking>rest".data).take 24))) ∧
      parseClarifaiOutput (openTagOf thinkingTag ++ " ponder ".data ++ closeTagOf thinkingTag) =
        [ApiStreamChunk.reasoning (trimChars " ponder ".data)] :=
  ⟨C4_classification.1 "<thinking> x </thinking>rest".data
      (ApiStreamChunk.reasoning "x".data) 24 (by decide),
    C4_classification.2.2.1 thinkingTag " ponder ".data (Or.inr (Or.inr rfl)) (by decide)⟩

theorem concatValues_cons (ch : ApiStreamChunk) (l : List ApiStreamChunk) :
    concatValues (ch :: l) = chunkValue ch ++ concatValues l := by
  simp [concatValues]

theorem isPrefixOf_cons_false {a b : Char} {as bs : List Char}
    (h : (a == b) = false) : (a :: as).isPrefixOf (b :: bs) = false := by
  show ((a == b) && as.isPrefixOf bs) = false
  rw [h, Bool.false_and]

theorem matchTagOne_fail_head {t : List Char} {x : Char} {rest : List Char}
    (hx : x ≠ '<') : matchTagOne t (x :: rest) = none := by
  unfold matchTagOne
  rw [if_neg ?_]
  simp only [openTagOf]
  rw [isPrefixOf_cons_false (beq_eq_false_iff_ne.mpr fun h => hx h.symm)]
  simp

theorem matchTag_fail_head {x : Char} {rest : List Char}
    (hx : x ≠ '<') : matchTag (x :: rest) = none := by
  unfold matchTag
  rw [matchTagOne_fail_head hx, matchTagOne_fail_head hx, matchTagOne_fail_head hx]

theorem matchFence_none {marker s : List Char}
    (h : marker.isPrefixOf s = false) : matchFence marker s = none := by
  unfold matchFence
  rw [if_neg (by simp [h])]

theorem tryMatchBlock_none_plain {x : Char} {rest : List Char}
    (hx : x ≠ '<')
    (htc : toolCodeMarker.isPrefixOf (x :: rest) = false)
    (htr : toolResultMarker.isPrefixOf (x :: rest) = false) :
    tryMatchBlock (x :: rest) = none := by
  unfold tryMatchBlock
  rw [matchTag_fail_head hx, matchFence_none htc, matchFence_none htr]

theorem occursIn_drop_false {pat : List Char} :
    ∀ {s : List Char}, occursIn pat s = false →
      ∀ n, occursIn pat (s.drop n) = false := by
  intro s
  induction s with
  | nil => intro h n; rw [List.drop_nil]; exact h
  | cons c rest ih =>
    intro h n
    cases n with
    | zero => exact h
    | succ m => exact ih (occursIn_tail_false h) m

theorem splitOnFirst_cons_lt_free (pat' : List Char) :
    ∀ (X : List Char), (∀ ch ∈ X, ch ≠ '<') → ∀ r,
      splitOnFirst ('<' :: pat') (X ++ (('<' :: pat') ++ r)) = some (X, r) := by
  intro X
  induction X with
  | nil =>
    intro _ r
    rw [List.nil_append]
    show splitOnFirst ('<' :: pat') ('<' :: (pat' ++ r)) = some ([], r)
    simp only [splitOnFirst]
    have hp : ('<' :: pat').isPrefixOf ('<' :: (pat' ++ r)) = true :=
      isPrefixOf_append_self ('<' :: pat') r
    rw [if_pos hp]
    simp
  | cons x xs ih =>
    intro hX r
    have hx : x ≠ '<' := hX x (by simp)
    show splitOnFirst ('<' :: pat') (x :: (xs ++ (('<' :: pat') ++ r))) = some (x :: xs, r)
    simp only [splitOnFirst]
    have hnp : ('<' :: pat').isPrefixOf (x :: (xs ++ (('<' :: pat') ++ r))) = false :=
      isPrefixOf_cons_false (beq_eq_false_iff_ne.mpr fun h => hx h.symm)
    rw [if_neg (by intro hcon; rw [hnp] at hcon; simp at hcon),
      ih (fun ch hch => hX ch (by simp [hch])) r]

theorem scanAux_step_match {s : List Char} {ch : ApiStreamChunk} {n : Nat}
    (hm : tryMatchBlock s = some (ch, n)) (hne : s ≠ []) (f : Nat) (pending : List Char) :
    scanAux (f + 1) s pending = flushText pending ++ ch :: scanAux f (s.drop n) [] := by
  cases s with
  | nil => exact absurd rfl hne
  | cons c rest => simp only [scanAux, hm]

theorem scanAux_step_none {x : Char} {rest : List Char}
    (hnone : tryMatchBlock (x :: rest) = none) (f : Nat) (pending : List Char) :
    scanAux (f + 1) (x :: rest) pending = scanAux f rest (pending ++ [x]) := by
  simp only [scanAux, hnone]

/-- A segment allowed by the reconstruction property of claim C5: a plain
stretch without an angle bracket, or a recognized tag block whose inner
content has no angle bracket. -/
def PlainTagSeg (seg : Seg) : Prop :=
  (∃ p, seg = Seg.plain p ∧ ∀ ch ∈ p, ch ≠ '<') ∨
  (∃ t c, seg = Seg.tagB t c ∧ (t = taskTag ∨ t = envTag ∨ t = thinkingTag) ∧
    ∀ ch ∈ c, ch ≠ '<')

theorem segsValue_of_render_nil :
    ∀ segs, (∀ seg ∈ segs, PlainTagSeg seg) → segsRender segs = [] →
      segsValue segs = [] := by
  intro segs
  induction segs with
  | nil => intro _ _; rfl
  | cons a l ih =>
    intro hA h0
    rw [segsRender_cons, List.append_eq_nil] at h0
    obtain ⟨ha, hl⟩ := h0
    rw [segsValue_cons, ih (fun seg hs => hA seg (by simp [hs])) hl, List.append_nil]
    rcases hA a (by simp) with ⟨q, rfl, -⟩ | ⟨t, c, rfl, -, -⟩
    · simp only [segRender] at ha
      simp only [segValue]
      exact ha
    · exfalso
      simp [segRender, openTagOf] at ha

theorem scanC5_base {fuel : Nat} {pending p : List Char} {segs : List Seg}
    (hA : ∀ seg ∈ segs, PlainTagSeg seg)
    (h0 : p ++ segsRender segs = []) :
    concatValues (scanAux fuel (p ++ segsRender segs) pending) =
      pending ++ (p ++ segsValue segs) := by
  rw [List.append_eq_nil] at h0
  obtain ⟨hp, hr⟩ := h0
  subst hp
  rw [segsValue_of_render_nil segs hA hr, hr]
  have hscan : scanAux fuel ([] : List Char) pending = flushText pending := by
    cases fuel with
    | zero => show flushText (pending ++ []) = flushText pending; rw [List.append_nil]
    | succ f => rfl
  simp only [List.nil_append]
  rw [hscan, concatValues_flushText, List.append_nil]

theorem scanC5_aux :
    ∀ N fuel (p : List Char) (segs : List Seg) (pending : List Char),
      fuel + segs.length ≤ N →
      (p ++ segsRender segs).length ≤ fuel →
      (∀ ch ∈ p, ch ≠ '<') →
      (∀ seg ∈ segs, PlainTagSeg seg) →
      occursIn toolCodeMarker (p ++ segsRender segs) = false →
      occursIn toolResultMarker (p ++ segsRender segs) = false →
      concatValues (scanAux fuel (p ++ segsRender segs) pending) =
        pending ++ (p ++ segsValue segs) := by
  intro N
  induction N with
  | zero =>
    intro fuel p segs pending hN hlen hp hsegs htc htr
    have h0 : p ++ segsRender segs = [] := by
      have hf : fuel = 0 := by omega
      subst hf
      exact List.eq_nil_of_length_eq_zero (Nat.le_zero.mp hlen)
    exact scanC5_base hsegs h0
  | succ N ih =>
    intro fuel p segs pending hN hlen hp hsegs htc htr
    cases p with
    | cons x p' =>
      have hx : x ≠ '<' := hp x (by simp)
      have hfuel : 1 ≤ fuel := by
        have h1 : 1 ≤ ((x :: p') ++ segsRender segs).length := by simp
        omega
      obtain ⟨f, rfl⟩ : ∃ f, fuel = f + 1 := ⟨fuel - 1, by omega⟩
      have htc' : occursIn toolCodeMarker (x :: (p' ++ segsRender segs)) = false := htc
      have htr' : occursIn toolResultMarker (x :: (p' ++ segsRender segs)) = false := htr
      have hnone : tryMatchBlock (x :: (p' ++ segsRender segs)) = none :=
        tryMatchBlock_none_plain hx (occursIn_head_false htc') (occursIn_head_false htr')
      show concatValues (scanAux (f + 1) (x :: (p' ++ segsRender segs)) pending) =
        pending ++ ((x :: p') ++ segsValue segs)
      rw [scanAux_step_none hnone f pending]
      rw [ih f p' segs (pending ++ [x]) (by omega)
        (by simp only [List.cons_append, List.length_cons] at hlen; omega)
        (fun ch hch => hp ch (by simp [hch])) hsegs
        (occursIn_tail_false htc') (occursIn_tail_false htr')]
      simp [List.append_assoc]
    | nil =>
      cases segs with
      | nil => exact scanC5_base hsegs rfl
      | cons seg segs2 =>
        rcases hsegs seg (by simp) with ⟨q, rfl, hq⟩ | ⟨t, c, rfl, hthree, hc⟩
        · have hre : ([] : List Char) ++ segsRender (Seg.plain q :: segs2) =
              q ++ segsRender segs2 := by
            simp [segsRender_cons, segRender]
          rw [hre] at hlen htc htr ⊢
          rw [ih fuel q segs2 pending
            (by simp only [List.length_cons] at hN; omega) hlen hq
            (fun s hs => hsegs s (by simp [hs])) htc htr]
          simp [segsValue_cons, segValue]
        · have hre : ([] : List Char) ++ segsRender (Seg.tagB t c :: segs2) =
              openTagOf t ++ (c ++ (closeTagOf t ++ segsRender segs2)) := by
            simp [segsRender_cons, segRender, List.append_assoc]
          rw [hre] at hlen htc htr ⊢
          have hsplit : splitOnFirst (closeTagOf t)
              (c ++ (closeTagOf t ++ segsRender segs2)) = some (c, segsRender segs2) :=
            splitOnFirst_cons_lt_free ('/' :: (t ++ ['>'])) c hc (segsRender segs2)
          have hm := tryMatchBlock_tag_render hthree hsplit
          have hne : openTagOf t ++ (c ++ (closeTagOf t ++ segsRender segs2)) ≠ [] := by
            simp [openTagOf]
          have hfuel : 1 ≤ fuel := by
            have h1 : 1 ≤ (openTagOf t ++ (c ++ (closeTagOf t ++ segsRender segs2))).length := by
              simp [openTagOf]
            omega
          obtain ⟨f, rfl⟩ : ∃ f, fuel = f + 1 := ⟨fuel - 1, by omega⟩
          rw [scanAux_step_match hm hne f pending]
          have hdrop : (openTagOf t ++ (c ++ (closeTagOf t ++ segsRender segs2))).drop
              ((openTagOf t).length + c.length + (closeTagOf t).length) =
              segsRender segs2 := by
            rw [show openTagOf t ++ (c ++ (closeTagOf t ++ segsRender segs2)) =
                (openTagOf t ++ c ++ closeTagOf t) ++ segsRender segs2 by
              simp [List.append_assoc]]
            rw [show (openTagOf t).length + c.length + (closeTagOf t).length =
                (openTagOf t ++ c ++ closeTagOf t).length by
              simp only [List.length_append]]
            exact List.drop_left _ _
          rw [hdrop, concatValues_append, concatValues_flushText, concatValues_cons]
          have hrec := ih f [] segs2 []
            (by simp only [List.length_cons] at hN; omega)
            (by simp only [List.length_append] at hlen
                have hop : 0 < (openTagOf t).length := by simp [openTagOf]
                simp only [List.nil_append]
                omega)
            (by intro ch hch; exact absurd hch (List.not_mem_nil ch))
            (fun s hs => hsegs s (by simp [hs]))
            (by simp only [List.nil_append]
                have h2 := occursIn_drop_false htc
                  ((openTagOf t).length + c.length + (closeTagOf t).length)
                rwa [hdrop] at h2)
            (by simp only [List.nil_append]
                have h2 := occursIn_drop_false htr
                  ((openTagOf t).length + c.length + (closeTagOf t).length)
                rwa [hdrop] at h2)
          simp only [List.nil_append] at hrec
          rw [hrec]
          simp [segsValue_cons, segValue, chunkValue]

/-- Claim C5: for every input made only of plain text (without angle
brackets) and well-formed task, environment-details or thinking tag
blocks (inner content without angle brackets), with no tool_code or
tool_result marker occurring anywhere, concatenating the chunk values in
emission order yields exactly the original input with the tag delimiters
removed and each block's inner content trimmed. -/
theorem C5_reconstruction (segs : List Seg)
    (hsegs : ∀ seg ∈ segs, PlainTagSeg seg)
    (htc : occursIn toolCodeMarker (segsRender segs) = false)
    (htr : occursIn toolResultMarker (segsRender segs) = false) :
    concatValues (parseClarifaiOutput (segsRender segs)) = segsValue segs := by
  have h := scanC5_aux ((segsRender segs).length + segs.length) ((segsRender segs).length)
    [] segs [] (Nat.le_refl _) (by simp)
    (by intro ch hch; exact absurd hch (List.not_mem_nil ch)) hsegs
    (by simpa using htc) (by simpa using htr)
  simpa [parseClarifaiOutput] using h

/-- Witness for claim C5 at the input `a<thinking> b </thinking>c`: the
chunk values concatenate to `abc`, the input with the tag delimiters
removed and the inner content ` b ` trimmed. -/
theorem C5_reconstruction_witness :
    concatValues (parseClarifaiOutput (segsRender
      [Seg.plain "a".data, Seg.tagB thinkingTag " b ".data, Seg.plain "c".data])) =
      segsValue [Seg.plain "a".data, Seg.tagB thinkingTag " b ".data, Seg.plain "c".data] :=
  C5_reconstruction _
    (by intro seg hs
        simp only [List.mem_cons, List.not_mem_nil, or_false] at hs
        rcases hs with rfl | rfl | rfl
        · exact Or.inl ⟨_, rfl, by decide⟩
        · exact Or.inr ⟨_, _, rfl, Or.inr (Or.inr rfl), by decide⟩
        · exact Or.inl ⟨_, rfl, by decide⟩)
    (by decide) (by decide)
